import Mathlib

/-!
Verification of the rattler resolver core and lock-file codec.

Shallow embedding of `crates/rattler/src/solver/resolver.rs` and
`crates/rattler_lock/src/serde.rs`.  External collaborators (the version
type, match-spec predicates, repo data) are modelled abstractly, exactly as
the design document prescribes: a `Version` is any totally ordered value
(here `Nat`), a match spec is an opaque token together with an optional
package name and a total `matches` predicate supplied by an environment.
-/

namespace Rattler

/-- Embedding of `PackageRecord` (the fields consulted by the resolver).
`version` and `timestamp` are abstract totally ordered values, modelled as
`Nat`; `depends`/`constrains` are the raw match-spec strings, parsed on
demand via the environment. -/
structure PackageRecord where
  name : String
  version : Nat
  build : String
  build_number : Nat
  depends : List String
  constrains : List String
  track_features : List String
  timestamp : Nat
deriving DecidableEq, Repr, Inhabited

/-- Embedding of `MatchSpec`: an opaque token (standing for the parsed spec
value, so that Rust's structural equality becomes token equality) plus the
optional package name. -/
structure MatchSpec where
  tok : Nat
  name : Option String
deriving DecidableEq, Repr

/-- The external collaborators of the resolver: the `matches` predicate of a
match spec, the match-spec parser (`MatchSpec::from_str` with the index's
channel config), and the per-name record lists the repo data yields
(`Index::package_variants` reads the repo datas; an unknown name gives an
empty list). -/
structure Env where
  msMatches : MatchSpec → PackageRecord → Bool
  parse : String → Except String MatchSpec
  universes : String → List PackageRecord

/-- Embedding of `PackageVariants`: the package name and the dense record
list.  The `by_order` and parsed-dependency caches are write-once memo
slots in the source and are modelled as pure functions below. -/
structure PackageVariants where
  name : String
  variants : List PackageRecord
deriving DecidableEq, Repr

/-- `Index::package_variants`: the universe for a package name. -/
def packageVariants (env : Env) (name : String) : PackageVariants :=
  { name := name, variants := env.universes name }

/-- `BitVec::none()`: every bit clear. -/
def noneBits (l : List Bool) : Bool :=
  l.all (fun b => !b)

/-- `BitVec::all()`: every bit set. -/
def allBits (l : List Bool) : Bool :=
  l.all (fun b => b)

/-- Popcount of a bit vector (`blocks().map(count_ones).sum()`). -/
def popcount (l : List Bool) : Nat :=
  l.countP (fun b => b)

/-- Embedding of `PackageVariantSet`.  The `Discrete` payload is the
`included` bit vector of `PackageVariantRange`; the universe handle it
carries in the source is dropped because the source's `PartialEq` compares
only the bit vectors and every binary operation asserts that the operands
share one universe. -/
inductive PackageVariantSet
  | Empty
  | Full
  | Discrete (included : List Bool)
deriving DecidableEq, Repr

namespace PackageVariantSet

/-- `PackageVariantRange::singleton`: a fresh all-false bit vector of the
universe's length with the bit at the variant's index set.  Note the source
performs no normalization here. -/
def singletonBits (n index : Nat) : List Bool :=
  (List.range n).map (fun i => decide (i = index))

/-- `<PackageVariantSet as VersionSet>::singleton` (universe of `n` variants,
variant index `index`). -/
def singleton (n index : Nat) : PackageVariantSet :=
  .Discrete (singletonBits n index)

/-- `<PackageVariantSet as VersionSet>::complement`. -/
def complement : PackageVariantSet → PackageVariantSet
  | .Empty => .Full
  | .Full => .Empty
  | .Discrete l => .Discrete (l.map (fun b => !b))

/-- `<PackageVariantSet as VersionSet>::intersection`: short-circuit on
Empty/Full, else bitwise AND re-normalizing the all-zero case. -/
def intersection : PackageVariantSet → PackageVariantSet → PackageVariantSet
  | .Empty, _ => .Empty
  | _, .Empty => .Empty
  | .Full, other => other
  | other, .Full => other
  | .Discrete a, .Discrete b =>
    let included := List.zipWith (fun x y => x && y) a b
    if noneBits included then .Empty else .Discrete included

/-- `<PackageVariantSet as VersionSet>::union`: short-circuit on Empty/Full,
else bitwise OR re-normalizing the all-one case. -/
def union : PackageVariantSet → PackageVariantSet → PackageVariantSet
  | .Empty, other => other
  | other, .Empty => other
  | .Full, _ => .Full
  | _, .Full => .Full
  | .Discrete a, .Discrete b =>
    let included := List.zipWith (fun x y => x || y) a b
    if allBits included then .Full else .Discrete included

/-- `PackageVariantSet::contains_variant_index`.  The source indexes the bit
vector with `get(idx).expect(..)`; out-of-range indices abort there, so the
embedding is only consulted at in-range indices (the default is irrelevant
to every theorem below). -/
def contains_variant_index : PackageVariantSet → Nat → Bool
  | .Empty, _ => false
  | .Full, _ => true
  | .Discrete l, idx => l.getD idx false

end PackageVariantSet

/-- `PackageVariants::range_from_matchspec`: set the bit of every variant the
spec matches, then normalize (none set → Empty, all set → Full). -/
def range_from_matchspec (env : Env) (self : PackageVariants) (ms : MatchSpec) :
    PackageVariantSet :=
  let included := self.variants.map (fun r => env.msMatches ms r)
  if noneBits included then .Empty
  else if allBits included then .Full
  else .Discrete included

/-- `PackageVariants::available_variant_count_in_range`. -/
def available_variant_count_in_range (self : PackageVariants)
    (range : PackageVariantSet) : Nat :=
  match range with
  | .Empty => 0
  | .Full => self.variants.length
  | .Discrete l => popcount l

/-- §8 invariant 1: a `Discrete` bit vector over a universe of `n` variants
has at least one bit set and at least one bit clear (Empty and Full satisfy
the invariant trivially, carrying no bitmap). -/
def normalizedFor (n : Nat) : PackageVariantSet → Prop
  | .Empty => True
  | .Full => True
  | .Discrete l => l.length = n ∧ 0 < popcount l ∧ popcount l < n

instance (n : Nat) (s : PackageVariantSet) : Decidable (normalizedFor n s) := by
  cases s <;> simp [normalizedFor] <;> infer_instance

/-! ### Bit-vector lemmas -/

lemma noneBits_iff (l : List Bool) : noneBits l = true ↔ ∀ b ∈ l, b = false := by
  simp [noneBits, List.all_eq_true]

lemma allBits_iff (l : List Bool) : allBits l = true ↔ ∀ b ∈ l, b = true := by
  simp [allBits, List.all_eq_true]

lemma popcount_pos_iff (l : List Bool) : 0 < popcount l ↔ ∃ b ∈ l, b = true := by
  simp [popcount, List.countP_pos_iff]

lemma popcount_eq_length_iff (l : List Bool) :
    popcount l = l.length ↔ ∀ b ∈ l, b = true := by
  simp [popcount, List.countP_eq_length]

lemma popcount_le_length (l : List Bool) : popcount l ≤ l.length :=
  List.countP_le_length _

lemma exists_true_idx {l : List Bool} (h : 0 < popcount l) :
    ∃ i, ∃ hi : i < l.length, l[i] = true := by
  obtain ⟨b, hb, rfl⟩ := (popcount_pos_iff l).mp h
  obtain ⟨i, hi, hval⟩ := List.mem_iff_getElem.mp hb
  exact ⟨i, hi, hval⟩

lemma exists_false_idx {l : List Bool} (h : popcount l < l.length) :
    ∃ i, ∃ hi : i < l.length, l[i] = false := by
  by_contra hcon
  push_neg at hcon
  have : popcount l = l.length := (popcount_eq_length_iff l).mpr (by
    intro b hb
    obtain ⟨i, hi, rfl⟩ := List.mem_iff_getElem.mp hb
    have := hcon i hi
    simpa using this)
  omega

lemma popcount_pos_of_true_idx {l : List Bool} {i : Nat} (hi : i < l.length)
    (h : l[i] = true) : 0 < popcount l :=
  (popcount_pos_iff l).mpr ⟨l[i], List.getElem_mem hi, h⟩

lemma popcount_lt_of_false_idx {l : List Bool} {i : Nat} (hi : i < l.length)
    (h : l[i] = false) : popcount l < l.length := by
  rcases Nat.lt_or_ge (popcount l) l.length with hlt | hge
  · exact hlt
  · exfalso
    have heq : popcount l = l.length := le_antisymm (popcount_le_length l) hge
    have := (popcount_eq_length_iff l).mp heq _ (List.getElem_mem hi)
    rw [h] at this
    exact Bool.false_ne_true this

lemma zipWith_and_assoc (a b c : List Bool) :
    List.zipWith (fun x y => x && y) (List.zipWith (fun x y => x && y) a b) c
      = List.zipWith (fun x y => x && y) a (List.zipWith (fun x y => x && y) b c) := by
  induction a generalizing b c with
  | nil => simp
  | cons x a ih =>
    cases b with
    | nil => simp
    | cons y b =>
      cases c with
      | nil => simp
      | cons z c => simp [ih, Bool.and_assoc]

lemma zipWith_or_assoc (a b c : List Bool) :
    List.zipWith (fun x y => x || y) (List.zipWith (fun x y => x || y) a b) c
      = List.zipWith (fun x y => x || y) a (List.zipWith (fun x y => x || y) b c) := by
  induction a generalizing b c with
  | nil => simp
  | cons x a ih =>
    cases b with
    | nil => simp
    | cons y b =>
      cases c with
      | nil => simp
      | cons z c => simp [ih, Bool.or_assoc]

lemma noneBits_zipWith_and_left (a b : List Bool) (h : noneBits a = true) :
    noneBits (List.zipWith (fun x y => x && y) a b) = true := by
  rw [noneBits_iff] at h ⊢
  intro bit hbit
  obtain ⟨i, hi, rfl⟩ := List.mem_iff_getElem.mp hbit
  rw [List.getElem_zipWith]
  have hia : i < a.length := lt_of_lt_of_le hi (by simp [List.length_zipWith])
  rw [h a[i] (List.getElem_mem hia)]
  simp

lemma noneBits_zipWith_and_right (a b : List Bool) (h : noneBits b = true) :
    noneBits (List.zipWith (fun x y => x && y) a b) = true := by
  rw [noneBits_iff] at h ⊢
  intro bit hbit
  obtain ⟨i, hi, rfl⟩ := List.mem_iff_getElem.mp hbit
  rw [List.getElem_zipWith]
  have hib : i < b.length := lt_of_lt_of_le hi (by simp [List.length_zipWith])
  rw [h b[i] (List.getElem_mem hib)]
  simp

lemma allBits_zipWith_or_left (a b : List Bool) (h : allBits a = true) :
    allBits (List.zipWith (fun x y => x || y) a b) = true := by
  rw [allBits_iff] at h ⊢
  intro bit hbit
  obtain ⟨i, hi, rfl⟩ := List.mem_iff_getElem.mp hbit
  rw [List.getElem_zipWith]
  have hia : i < a.length := lt_of_lt_of_le hi (by simp [List.length_zipWith])
  rw [h a[i] (List.getElem_mem hia)]
  simp

lemma allBits_zipWith_or_right (a b : List Bool) (h : allBits b = true) :
    allBits (List.zipWith (fun x y => x || y) a b) = true := by
  rw [allBits_iff] at h ⊢
  intro bit hbit
  obtain ⟨i, hi, rfl⟩ := List.mem_iff_getElem.mp hbit
  rw [List.getElem_zipWith]
  have hib : i < b.length := lt_of_lt_of_le hi (by simp [List.length_zipWith])
  rw [h b[i] (List.getElem_mem hib)]
  simp

lemma noneBits_zipWith_and_not (l : List Bool) :
    noneBits (List.zipWith (fun x y => x && y) l (l.map (fun b => !b))) = true := by
  rw [noneBits_iff]
  intro bit hbit
  obtain ⟨i, hi, rfl⟩ := List.mem_iff_getElem.mp hbit
  simp [List.getElem_zipWith, List.getElem_map]

lemma allBits_zipWith_or_not (l : List Bool) :
    allBits (List.zipWith (fun x y => x || y) l (l.map (fun b => !b))) = true := by
  rw [allBits_iff]
  intro bit hbit
  obtain ⟨i, hi, rfl⟩ := List.mem_iff_getElem.mp hbit
  simp [List.getElem_zipWith, List.getElem_map]

/-! ### Constructor-level rewriting lemmas for the set algebra -/

namespace PackageVariantSet

lemma intersection_empty_left (s : PackageVariantSet) :
    PackageVariantSet.Empty.intersection s = .Empty := by cases s <;> rfl

lemma intersection_empty_right (s : PackageVariantSet) :
    s.intersection .Empty = .Empty := by cases s <;> rfl

lemma intersection_full_left (s : PackageVariantSet) :
    PackageVariantSet.Full.intersection s = s := by cases s <;> rfl

lemma intersection_full_right (s : PackageVariantSet) :
    s.intersection .Full = s := by cases s <;> rfl

lemma union_empty_left (s : PackageVariantSet) :
    PackageVariantSet.Empty.union s = s := by cases s <;> rfl

lemma union_empty_right (s : PackageVariantSet) :
    s.union .Empty = s := by cases s <;> rfl

lemma union_full_left (s : PackageVariantSet) :
    PackageVariantSet.Full.union s = .Full := by cases s <;> rfl

lemma union_full_right (s : PackageVariantSet) :
    s.union .Full = .Full := by cases s <;> rfl

lemma complement_complement (s : PackageVariantSet) :
    s.complement.complement = s := by
  cases s with
  | Empty => rfl
  | Full => rfl
  | Discrete l => simp [complement, List.map_map, Function.comp_def]

lemma intersection_complement (s : PackageVariantSet) :
    s.intersection s.complement = .Empty := by
  cases s with
  | Empty => rfl
  | Full => rfl
  | Discrete l => simp [complement, intersection, noneBits_zipWith_and_not]

lemma union_complement (s : PackageVariantSet) :
    s.union s.complement = .Full := by
  cases s with
  | Empty => rfl
  | Full => rfl
  | Discrete l => simp [complement, union, allBits_zipWith_or_not]

lemma intersection_comm (a b : PackageVariantSet) :
    a.intersection b = b.intersection a := by
  cases a <;> cases b <;> try rfl
  case Discrete.Discrete la lb =>
    simp only [intersection]
    rw [List.zipWith_comm_of_comm _ Bool.and_comm la lb]

lemma union_comm (a b : PackageVariantSet) :
    a.union b = b.union a := by
  cases a <;> cases b <;> try rfl
  case Discrete.Discrete la lb =>
    simp only [union]
    rw [List.zipWith_comm_of_comm _ Bool.or_comm la lb]

lemma intersection_assoc (a b c : PackageVariantSet) :
    (a.intersection b).intersection c = a.intersection (b.intersection c) := by
  cases a with
  | Empty => simp [intersection_empty_left]
  | Full => simp [intersection_full_left]
  | Discrete la =>
    cases b with
    | Empty => simp [intersection_empty_left, intersection_empty_right]
    | Full => simp [intersection_full_left, intersection_full_right]
    | Discrete lb =>
      cases c with
      | Empty => simp [intersection_empty_right]
      | Full => simp [intersection_full_right]
      | Discrete lc =>
        by_cases hab : noneBits (List.zipWith (fun x y => x && y) la lb) = true
        · have h1 : (Discrete la).intersection (.Discrete lb) = .Empty := by
            simp [intersection, hab]
          rw [h1, intersection_empty_left]
          by_cases hbc : noneBits (List.zipWith (fun x y => x && y) lb lc) = true
          · have h2 : (Discrete lb).intersection (.Discrete lc) = .Empty := by
              simp [intersection, hbc]
            rw [h2, intersection_empty_right]
          · have h2 : (Discrete lb).intersection (.Discrete lc)
                = .Discrete (List.zipWith (fun x y => x && y) lb lc) := by
              simp [intersection, hbc]
            rw [h2]
            have h3 : noneBits (List.zipWith (fun x y => x && y) la
                (List.zipWith (fun x y => x && y) lb lc)) = true := by
              rw [← zipWith_and_assoc]
              exact noneBits_zipWith_and_left _ _ hab
            simp [intersection, h3]
        · have h1 : (Discrete la).intersection (.Discrete lb)
              = .Discrete (List.zipWith (fun x y => x && y) la lb) := by
            simp [intersection, hab]
          rw [h1]
          by_cases hbc : noneBits (List.zipWith (fun x y => x && y) lb lc) = true
          · have h2 : (Discrete lb).intersection (.Discrete lc) = .Empty := by
              simp [intersection, hbc]
            rw [h2, intersection_empty_right]
            have h3 : noneBits (List.zipWith (fun x y => x && y)
                (List.zipWith (fun x y => x && y) la lb) lc) = true := by
              rw [zipWith_and_assoc]
              exact noneBits_zipWith_and_right _ _ hbc
            simp [intersection, h3]
          · have h2 : (Discrete lb).intersection (.Discrete lc)
                = .Discrete (List.zipWith (fun x y => x && y) lb lc) := by
              simp [intersection, hbc]
            rw [h2]
            simp only [intersection, zipWith_and_assoc]

lemma union_assoc (a b c : PackageVariantSet) :
    (a.union b).union c = a.union (b.union c) := by
  cases a with
  | Empty => simp [union_empty_left]
  | Full => simp [union_full_left]
  | Discrete la =>
    cases b with
    | Empty => simp [union_empty_left, union_empty_right]
    | Full => simp [union_full_left, union_full_right]
    | Discrete lb =>
      cases c with
      | Empty => simp [union_empty_right]
      | Full => simp [union_full_right]
      | Discrete lc =>
        by_cases hab : allBits (List.zipWith (fun x y => x || y) la lb) = true
        · have h1 : (Discrete la).union (.Discrete lb) = .Full := by
            simp [union, hab]
          rw [h1, union_full_left]
          by_cases hbc : allBits (List.zipWith (fun x y => x || y) lb lc) = true
          · have h2 : (Discrete lb).union (.Discrete lc) = .Full := by
              simp [union, hbc]
            rw [h2, union_full_right]
          · have h2 : (Discrete lb).union (.Discrete lc)
                = .Discrete (List.zipWith (fun x y => x || y) lb lc) := by
              simp [union, hbc]
            rw [h2]
            have h3 : allBits (List.zipWith (fun x y => x || y) la
                (List.zipWith (fun x y => x || y) lb lc)) = true := by
              rw [← zipWith_or_assoc]
              exact allBits_zipWith_or_left _ _ hab
            simp [union, h3]
        · have h1 : (Discrete la).union (.Discrete lb)
              = .Discrete (List.zipWith (fun x y => x || y) la lb) := by
            simp [union, hab]
          rw [h1]
          by_cases hbc : allBits (List.zipWith (fun x y => x || y) lb lc) = true
          · have h2 : (Discrete lb).union (.Discrete lc) = .Full := by
              simp [union, hbc]
            rw [h2, union_full_right]
            have h3 : allBits (List.zipWith (fun x y => x || y)
                (List.zipWith (fun x y => x || y) la lb) lc) = true := by
              rw [zipWith_or_assoc]
              exact allBits_zipWith_or_right _ _ hbc
            simp [union, h3]
          · have h2 : (Discrete lb).union (.Discrete lc)
                = .Discrete (List.zipWith (fun x y => x || y) lb lc) := by
              simp [union, hbc]
            rw [h2]
            simp only [union, zipWith_or_assoc]

end PackageVariantSet

/-! ### Normalization lemmas -/

lemma popcount_pos_of_not_noneBits {l : List Bool} (h : ¬ noneBits l = true) :
    0 < popcount l := by
  rw [noneBits_iff] at h
  push_neg at h
  obtain ⟨b, hb, hbne⟩ := h
  refine (popcount_pos_iff l).mpr ⟨b, hb, ?_⟩
  revert hbne
  cases b <;> simp

lemma popcount_lt_of_not_allBits {l : List Bool} (h : ¬ allBits l = true) :
    popcount l < l.length := by
  rw [allBits_iff] at h
  push_neg at h
  obtain ⟨b, hb, hbne⟩ := h
  have hbf : b = false := by revert hbne; cases b <;> simp
  subst hbf
  obtain ⟨i, hi, hval⟩ := List.mem_iff_getElem.mp hb
  exact popcount_lt_of_false_idx hi hval

lemma popcount_map_not (l : List Bool) :
    popcount (l.map (fun b => !b)) = l.length - popcount l := by
  induction l with
  | nil => rfl
  | cons x t ih =>
    have hle := popcount_le_length t
    cases x <;>
      simp [popcount, List.countP_cons] at ih hle ⊢ <;>
      omega

lemma normalized_complement {n : Nat} {s : PackageVariantSet}
    (h : normalizedFor n s) : normalizedFor n s.complement := by
  cases s with
  | Empty => trivial
  | Full => trivial
  | Discrete l =>
    obtain ⟨hlen, hpos, hlt⟩ := h
    refine ⟨by simpa using hlen, ?_, ?_⟩
    · rw [popcount_map_not]; omega
    · rw [popcount_map_not]; omega

lemma normalized_intersection {n : Nat} {a b : PackageVariantSet}
    (ha : normalizedFor n a) (hb : normalizedFor n b) :
    normalizedFor n (a.intersection b) := by
  cases a with
  | Empty => rw [PackageVariantSet.intersection_empty_left]; trivial
  | Full => rw [PackageVariantSet.intersection_full_left]; exact hb
  | Discrete la =>
    cases b with
    | Empty => rw [PackageVariantSet.intersection_empty_right]; trivial
    | Full => rw [PackageVariantSet.intersection_full_right]; exact ha
    | Discrete lb =>
      obtain ⟨halen, hapos, halt⟩ := ha
      obtain ⟨hblen, _, _⟩ := hb
      show normalizedFor n (PackageVariantSet.intersection _ _)
      simp only [PackageVariantSet.intersection]
      by_cases hn : noneBits (List.zipWith (fun x y => x && y) la lb) = true
      · simp [hn, normalizedFor]
      · simp only [hn, if_neg, Bool.false_eq_true, not_false_eq_true, if_false]
        have hlen : (List.zipWith (fun x y => x && y) la lb).length = n := by
          simp [List.length_zipWith]; omega
        refine ⟨hlen, popcount_pos_of_not_noneBits hn, ?_⟩
        obtain ⟨i, hia, hival⟩ := exists_false_idx (by omega : popcount la < la.length)
        have hi : i < (List.zipWith (fun x y => x && y) la lb).length := by omega
        have : (List.zipWith (fun x y => x && y) la lb)[i] = false := by
          rw [List.getElem_zipWith, hival]
          simp
        have := popcount_lt_of_false_idx hi this
        omega

lemma normalized_union {n : Nat} {a b : PackageVariantSet}
    (ha : normalizedFor n a) (hb : normalizedFor n b) :
    normalizedFor n (a.union b) := by
  cases a with
  | Empty => rw [PackageVariantSet.union_empty_left]; exact hb
  | Full => rw [PackageVariantSet.union_full_left]; trivial
  | Discrete la =>
    cases b with
    | Empty => rw [PackageVariantSet.union_empty_right]; exact ha
    | Full => rw [PackageVariantSet.union_full_right]; trivial
    | Discrete lb =>
      obtain ⟨halen, hapos, halt⟩ := ha
      obtain ⟨hblen, _, _⟩ := hb
      show normalizedFor n (PackageVariantSet.union _ _)
      simp only [PackageVariantSet.union]
      by_cases hn : allBits (List.zipWith (fun x y => x || y) la lb) = true
      · simp [hn, normalizedFor]
      · simp only [hn, if_neg, Bool.false_eq_true, not_false_eq_true, if_false]
        have hlen : (List.zipWith (fun x y => x || y) la lb).length = n := by
          simp [List.length_zipWith]; omega
        refine ⟨hlen, ?_, ?_⟩
        · obtain ⟨i, hia, hival⟩ := exists_true_idx hapos
          have hi : i < (List.zipWith (fun x y => x || y) la lb).length := by omega
          have : (List.zipWith (fun x y => x || y) la lb)[i] = true := by
            rw [List.getElem_zipWith, hival]
            simp
          exact popcount_pos_of_true_idx hi this
        · have := popcount_lt_of_not_allBits hn
          omega

lemma range_normalized (env : Env) (self : PackageVariants) (ms : MatchSpec) :
    normalizedFor self.variants.length (range_from_matchspec env self ms) := by
  unfold range_from_matchspec
  by_cases hn : noneBits (self.variants.map (fun r => env.msMatches ms r)) = true
  · simp [hn, normalizedFor]
  · by_cases ha : allBits (self.variants.map (fun r => env.msMatches ms r)) = true
    · simp [hn, ha, normalizedFor]
    · simp only [hn, ha, Bool.false_eq_true, not_false_eq_true, if_false, if_neg]
      refine ⟨by simp, popcount_pos_of_not_noneBits hn, ?_⟩
      have := popcount_lt_of_not_allBits ha
      simpa using this

lemma range_contains (env : Env) (self : PackageVariants) (ms : MatchSpec)
    (idx : Nat) (h : idx < self.variants.length) :
    (range_from_matchspec env self ms).contains_variant_index idx
      = env.msMatches ms (self.variants.getD idx default) := by
  unfold range_from_matchspec
  have hmem : self.variants.getD idx default ∈ self.variants := by
    rw [List.getD_eq_getElem _ _ h]
    exact List.getElem_mem h
  have hmemmap : env.msMatches ms (self.variants.getD idx default)
      ∈ self.variants.map (fun r => env.msMatches ms r) :=
    List.mem_map_of_mem _ hmem
  by_cases hn : noneBits (self.variants.map (fun r => env.msMatches ms r)) = true
  · have hf := (noneBits_iff _).mp hn _ hmemmap
    simp only [hn, if_true, PackageVariantSet.contains_variant_index]
    exact hf.symm
  · by_cases ha : allBits (self.variants.map (fun r => env.msMatches ms r)) = true
    · have ht := (allBits_iff _).mp ha _ hmemmap
      simp only [hn, ha, Bool.false_eq_true, not_false_eq_true, if_false, if_neg, if_true,
        PackageVariantSet.contains_variant_index]
      exact ht.symm
    · simp only [hn, ha, Bool.false_eq_true, not_false_eq_true, if_false, if_neg]
      show (self.variants.map (fun r => env.msMatches ms r)).getD idx false = _
      have hidx : idx < (self.variants.map (fun r => env.msMatches ms r)).length := by
        simpa using h
      rw [List.getD_eq_getElem _ _ hidx, List.getElem_map,
        List.getD_eq_getElem _ _ h]

lemma range_empty_iff (env : Env) (self : PackageVariants) (ms : MatchSpec) :
    range_from_matchspec env self ms = .Empty
      ↔ ∀ r ∈ self.variants, env.msMatches ms r = false := by
  unfold range_from_matchspec
  by_cases hn : noneBits (self.variants.map (fun r => env.msMatches ms r)) = true
  · simp only [hn, if_true]
    rw [noneBits_iff] at hn
    simp only [true_iff]
    intro r hr
    exact hn _ (List.mem_map_of_mem _ hr)
  · have hnot : ¬ ∀ r ∈ self.variants, env.msMatches ms r = false := by
      intro hall
      apply hn
      rw [noneBits_iff]
      intro b hb
      obtain ⟨r, hr, rfl⟩ := List.mem_map.mp hb
      exact hall r hr
    by_cases ha : allBits (self.variants.map (fun r => env.msMatches ms r)) = true
    · simp [hn, ha, hnot]
    · simp [hn, ha, hnot]

lemma range_full_iff (env : Env) (self : PackageVariants) (ms : MatchSpec)
    (hne : self.variants ≠ []) :
    range_from_matchspec env self ms = .Full
      ↔ ∀ r ∈ self.variants, env.msMatches ms r = true := by
  unfold range_from_matchspec
  by_cases ha : allBits (self.variants.map (fun r => env.msMatches ms r)) = true
  · have hn : ¬ noneBits (self.variants.map (fun r => env.msMatches ms r)) = true := by
      obtain ⟨r, hr⟩ := List.exists_mem_of_ne_nil _ hne
      intro hnone
      have h1 := (noneBits_iff _).mp hnone _ (List.mem_map_of_mem _ hr)
      have h2 := (allBits_iff _).mp ha _ (List.mem_map_of_mem _ hr)
      rw [h1] at h2
      exact Bool.false_ne_true h2
    simp only [hn, ha, Bool.false_eq_true, not_false_eq_true, if_false, if_neg, if_true]
    rw [allBits_iff] at ha
    simp only [true_iff]
    intro r hr
    exact ha _ (List.mem_map_of_mem _ hr)
  · have hnot : ¬ ∀ r ∈ self.variants, env.msMatches ms r = true := by
      intro hall
      apply ha
      rw [allBits_iff]
      intro b hb
      obtain ⟨r, hr, rfl⟩ := List.mem_map.mp hb
      exact hall r hr
    by_cases hn : noneBits (self.variants.map (fun r => env.msMatches ms r)) = true
    · simp [hn, hnot]
    · simp [hn, ha, hnot]

/-! ### Singleton lemmas -/

lemma length_singletonBits (n idx : Nat) :
    (PackageVariantSet.singletonBits n idx).length = n := by
  simp [PackageVariantSet.singletonBits]

lemma popcount_singletonBits {n idx : Nat} (h : idx < n) :
    popcount (PackageVariantSet.singletonBits n idx) = 1 := by
  unfold PackageVariantSet.singletonBits popcount
  rw [List.countP_map]
  induction n with
  | zero => omega
  | succ m ih =>
    rw [List.range_succ, List.countP_append]
    rcases Nat.lt_or_ge idx m with hlt | hge
    · rw [ih hlt]
      have : ¬ (m = idx) := by omega
      simp [List.countP_cons, this]
    · have heq : idx = m := by omega
      subst heq
      have hzero : List.countP ((fun b => b) ∘ fun i => decide (i = idx)) (List.range idx) = 0 := by
        rw [List.countP_eq_zero]
        intro i hi
        have := List.mem_range.mp hi
        simp
        omega
      rw [hzero]
      simp [List.countP_cons]

lemma normalized_singleton_iff {n idx : Nat} (h : idx < n) :
    normalizedFor n (PackageVariantSet.singleton n idx) ↔ 1 < n := by
  simp [PackageVariantSet.singleton, normalizedFor, length_singletonBits,
    popcount_singletonBits h]

/-! ### Claim theorems: C7, C2, C6, C8 -/

/-- C7: over a shared universe the candidate-set algebra satisfies
`complement(complement(s)) = s`, `intersection(s, full) = s`,
`union(s, empty) = s`, `intersection(s, complement(s)) = empty`,
`union(s, complement(s)) = full`, and intersection and union are
commutative and associative. -/
theorem c7_candidate_set_algebra_laws (s a b c : PackageVariantSet) :
    s.complement.complement = s
  ∧ s.intersection .Full = s
  ∧ s.union .Empty = s
  ∧ s.intersection s.complement = .Empty
  ∧ s.union s.complement = .Full
  ∧ a.intersection b = b.intersection a
  ∧ a.union b = b.union a
  ∧ (a.intersection b).intersection c = a.intersection (b.intersection c)
  ∧ (a.union b).union c = a.union (b.union c) :=
  ⟨PackageVariantSet.complement_complement s, PackageVariantSet.intersection_full_right s,
   PackageVariantSet.union_empty_right s, PackageVariantSet.intersection_complement s,
   PackageVariantSet.union_complement s, PackageVariantSet.intersection_comm a b,
   PackageVariantSet.union_comm a b, PackageVariantSet.intersection_assoc a b c,
   PackageVariantSet.union_assoc a b c⟩

/-- C2 counterexample: contrary to the claim, `singleton(v)` over a
one-variant universe produces the `Discrete` (Subset) set `[true]`, whose
single bit is set and which therefore has no clear bit: the normalization
invariant `popcount(s) ∉ \x7b0, universe.size\x7d` fails for it. -/
theorem c2_counterexample_singleton_degenerate :
    PackageVariantSet.singleton 1 0 = .Discrete [true]
      ∧ ¬ normalizedFor 1 (PackageVariantSet.singleton 1 0) := by
  constructor
  · rfl
  · decide

/-- C2 amended: `range_from_matchspec` always yields a normalized set, and
`empty`, `full`, `complement`, `intersection` and `union` preserve
normalization over a shared universe of `n` variants; `singleton`, however,
performs no normalization: it always returns a Subset with exactly one bit
set, which is degenerate precisely when the universe has exactly one
variant. -/
theorem c2_amended_subset_normalization (env : Env) (self : PackageVariants)
    (ms : MatchSpec) (n idx : Nat) (s a b : PackageVariantSet) :
    normalizedFor self.variants.length (range_from_matchspec env self ms)
  ∧ normalizedFor n .Empty
  ∧ normalizedFor n .Full
  ∧ (normalizedFor n s → normalizedFor n s.complement)
  ∧ (normalizedFor n a → normalizedFor n b → normalizedFor n (a.intersection b))
  ∧ (normalizedFor n a → normalizedFor n b → normalizedFor n (a.union b))
  ∧ (idx < n → popcount (PackageVariantSet.singletonBits n idx) = 1
      ∧ (normalizedFor n (PackageVariantSet.singleton n idx) ↔ 1 < n)) :=
  ⟨range_normalized env self ms, trivial, trivial,
   fun h => normalized_complement h,
   fun ha hb => normalized_intersection ha hb,
   fun ha hb => normalized_union ha hb,
   fun h => ⟨popcount_singletonBits h, normalized_singleton_iff h⟩⟩

/-- C6: `range_from_matchspec(u, spec)` contains an in-range variant index
iff the spec matches the record at that index, and the result is
normalized — Empty exactly when no variant matches, Full (for a non-empty
universe) exactly when all match, otherwise a non-degenerate Subset. -/
theorem c6_range_from_matchspec_spec (env : Env) (self : PackageVariants)
    (ms : MatchSpec) :
    normalizedFor self.variants.length (range_from_matchspec env self ms)
  ∧ (∀ idx, idx < self.variants.length →
      (range_from_matchspec env self ms).contains_variant_index idx
        = env.msMatches ms (self.variants.getD idx default))
  ∧ ((range_from_matchspec env self ms = .Empty)
      ↔ ∀ r ∈ self.variants, env.msMatches ms r = false)
  ∧ (self.variants ≠ [] →
      ((range_from_matchspec env self ms = .Full)
        ↔ ∀ r ∈ self.variants, env.msMatches ms r = true)) :=
  ⟨range_normalized env self ms,
   fun idx h => range_contains env self ms idx h,
   range_empty_iff env self ms,
   fun hne => range_full_iff env self ms hne⟩

/-- Lock file format version bound (`FILE_VERSION` in
`rattler_lock/src/serde.rs`). -/
def FILE_VERSION : Nat := 2

/-- Embedding of `impl Deserialize for Version`: the deserialized `u32`
(modelled as `Nat`; no arithmetic is performed so the width is irrelevant)
is rejected with the prescribed message when it exceeds `FILE_VERSION`. -/
def deserializeVersion (version : Nat) : Except String Nat :=
  if version > FILE_VERSION then
    .error ("found newer file format version " ++ toString version
      ++ ", but only up to including version " ++ toString FILE_VERSION ++ " is supported")
  else .ok version

/-- C8: deserializing a lock-file version greater than the highest supported
value (2) fails with exactly
`found newer file format version <N>, but only up to including version <MAX> is supported`,
and a version at most 2 is accepted. -/
theorem c8_version_guard (v : Nat) :
    FILE_VERSION = 2
  ∧ (FILE_VERSION < v → deserializeVersion v = .error ("found newer file format version "
      ++ toString v ++ ", but only up to including version "
      ++ toString FILE_VERSION ++ " is supported"))
  ∧ (v ≤ FILE_VERSION → deserializeVersion v = .ok v) := by
  refine ⟨rfl, ?_, ?_⟩
  · intro h
    unfold deserializeVersion
    rw [if_pos h]
  · intro h
    unfold deserializeVersion
    rw [if_neg (by omega)]

/-- Witness for C8 at versions 1000 (rejected) and 2 (accepted). -/
theorem c8_version_guard_witness :
    FILE_VERSION < 1000
  ∧ deserializeVersion 1000 = .error ("found newer file format version "
      ++ toString 1000 ++ ", but only up to including version "
      ++ toString FILE_VERSION ++ " is supported")
  ∧ deserializeVersion 2 = .ok 2 :=
  ⟨by decide, (c8_version_guard 1000).2.1 (by decide), (c8_version_guard 2).2.2 (by decide)⟩

/-! ### Concrete sample environment used by witnesses -/

/-- A concrete two-variant record (version 1). -/
def recA : PackageRecord :=
  { name := "p", version := 1, build := "0", build_number := 0, depends := [],
    constrains := [], track_features := [], timestamp := 0 }

/-- A concrete two-variant record (version 2). -/
def recB : PackageRecord :=
  { name := "p", version := 2, build := "0", build_number := 0, depends := [],
    constrains := [], track_features := [], timestamp := 0 }

/-- A concrete environment: one package `p` with two variants; a spec's
token selects the version it matches; parsing names the spec after the raw
string. -/
def envA : Env :=
  { msMatches := fun ms r => decide (r.version = ms.tok)
    parse := fun s => .ok { tok := 0, name := some s }
    universes := fun nm => if nm = "p" then [recA, recB] else [] }

/-- Witness for C2 at a concrete two-variant universe. -/
theorem c2_amended_subset_normalization_witness :
    normalizedFor 2 (PackageVariantSet.Discrete [true, false]).complement
  ∧ popcount (PackageVariantSet.singletonBits 2 0) = 1 :=
  have h := c2_amended_subset_normalization envA (packageVariants envA ("p")) ⟨0, none⟩
    2 0 (.Discrete [true, false]) (.Discrete [true, false]) (.Discrete [true, true])
  ⟨h.2.2.2.1 (by decide), (h.2.2.2.2.2.2 (by decide)).1⟩

/-! ### Ordering policy (`Index::compare_variants`, `Index::variants_order`) -/

/-- `Index::dependencies`: parse the `depends` strings of one record
(memoized in a write-once slot in the source; modelled as the pure parse,
which the memoization equals). -/
def dependencies (env : Env) (self : PackageVariants) (variant_idx : Nat) :
    Except String (List MatchSpec) :=
  ((self.variants.getD variant_idx default).depends).mapM env.parse

/-- `Index::find_highest_version`: over the matching records of the spec's
universe, fold up the highest version and the tracked-features flag exactly
as the source does (note the fold combines with
`has_tracked_features && record.track_features.is_empty()` for every record
after the first).  The match-spec cache memoizes this pure result. -/
def find_highest_version (env : Env) (match_spec : MatchSpec) :
    Option (Nat × Bool) :=
  match match_spec.name with
  | none => none
  | some name =>
    let version_set := packageVariants env name
    let matching_records :=
      version_set.variants.filter (fun record => env.msMatches match_spec record)
    matching_records.foldl (fun init record =>
      some (match init with
        | none => (record.version, !record.track_features.isEmpty)
        | some (version, has_tracked_features) =>
          (max version record.version,
           has_tracked_features && record.track_features.isEmpty))) none

/-- The `(name, spec)` pairs of the specs that carry a package name
(`filter_map(|spec| spec.name.as_ref().map(|name| (name, spec)))`). -/
def namedSpecs (specs : List MatchSpec) : List (String × MatchSpec) :=
  specs.filterMap (fun spec => spec.name.map (fun n => (n, spec)))

/-- The dependency-scoring loop of `Index::compare_variants`: iterate `a`'s
named specs, look each name up in the HashMap built from `b`'s named specs
(later duplicates overwrite earlier ones, hence the reversed lookup), and
accumulate ±100 for the tracked-features comparison or ±1 for the
highest-version comparison.  A parse failure yields the empty spec list
(`unwrap_or(&empty_vec)`). -/
def depScore (env : Env) (self : PackageVariants) (a_idx b_idx : Nat) : Int :=
  let a_match_specs := (dependencies env self a_idx).toOption.getD []
  let b_match_specs := (dependencies env self b_idx).toOption.getD []
  let b_specs_by_name := (namedSpecs b_match_specs).reverse
  (namedSpecs a_match_specs).foldl (fun total_score p =>
    match b_specs_by_name.lookup p.1 with
    | none => total_score
    | some b_spec =>
      if p.2 = b_spec then total_score
      else
        match find_highest_version env p.2, find_highest_version env b_spec with
        | some a_result, some b_result =>
          match compare a_result.2 b_result.2 with
          | .lt => total_score - 100
          | .gt => total_score + 100
          | .eq =>
            match compare a_result.1 b_result.1 with
            | .lt => total_score + 1
            | .eq => total_score
            | .gt => total_score - 1
        | _, _ => total_score) 0

/-- `Index::compare_variants`: the §4.3 cascade — tracked features, then
version (reversed: higher first), then build number (reversed), then the
dependency score compared against 0, then timestamp (reversed). -/
def compare_variants (env : Env) (self : PackageVariants) (a_idx b_idx : Nat) :
    Ordering :=
  let a := self.variants.getD a_idx default
  let b := self.variants.getD b_idx default
  match compare b.track_features.isEmpty a.track_features.isEmpty with
  | .lt => .lt
  | .gt => .gt
  | .eq =>
    match compare a.version b.version with
    | .lt => .gt
    | .gt => .lt
    | .eq =>
      match compare a.build_number b.build_number with
      | .lt => .gt
      | .gt => .lt
      | .eq =>
        match compare (depScore env self a_idx b_idx) 0 with
        | .eq => compare b.timestamp a.timestamp
        | ord => ord

/-- `Index::variants_order`: the memoized `by_order` permutation —
`(0..len).collect().sort_by(compare_variants)`.  Rust's stable `sort_by` is
modelled by the stable insertion sort; every stable sort computes the same
permutation for a comparator that is a total preorder. -/
def variants_order (env : Env) (self : PackageVariants) : List Nat :=
  List.insertionSort (fun a b => compare_variants env self a b ≠ .gt)
    (List.range self.variants.length)

/-! ### Stable-sort infrastructure (membership-localized) -/

lemma pairwise_orderedInsert_of {α : Type} (r : α → α → Prop) [DecidableRel r]
    (x : α) (s : List α) (hs : s.Pairwise r)
    (htot : ∀ b ∈ s, r x b ∨ r b x)
    (htrans : ∀ b ∈ s, ∀ c ∈ s, r x b → r b c → r x c) :
    (s.orderedInsert r x).Pairwise r := by
  induction s with
  | nil => simp
  | cons b t ih =>
    rw [List.pairwise_cons] at hs
    obtain ⟨hb, ht⟩ := hs
    by_cases hxb : r x b
    · rw [List.orderedInsert, if_pos hxb]
      refine List.Pairwise.cons ?_ (List.Pairwise.cons hb ht)
      intro y hy
      rcases List.mem_cons.mp hy with rfl | hyt
      · exact hxb
      · exact htrans b (by simp) y (List.mem_cons_of_mem _ hyt) hxb (hb y hyt)
    · have hbx : r b x := (htot b (by simp)).resolve_left hxb
      rw [List.orderedInsert, if_neg hxb]
      refine List.Pairwise.cons ?_ ?_
      · intro y hy
        rcases (List.mem_orderedInsert _).mp hy with rfl | hyt
        · exact hbx
        · exact hb y hyt
      · exact ih ht
          (fun c hc => htot c (List.mem_cons_of_mem _ hc))
          (fun c hc d hd => htrans c (List.mem_cons_of_mem _ hc)
            d (List.mem_cons_of_mem _ hd))

lemma pairwise_insertionSort_of {α : Type} (r : α → α → Prop) [DecidableRel r]
    (l : List α)
    (htot : ∀ a ∈ l, ∀ b ∈ l, r a b ∨ r b a)
    (htrans : ∀ a ∈ l, ∀ b ∈ l, ∀ c ∈ l, r a b → r b c → r a c) :
    (List.insertionSort r l).Pairwise r := by
  induction l with
  | nil => simp
  | cons x t ih =>
    have hsub : ∀ y ∈ List.insertionSort r t, y ∈ t :=
      fun y hy => (List.perm_insertionSort r t).subset hy
    rw [List.insertionSort]
    apply pairwise_orderedInsert_of
    · exact ih
        (fun a ha b hb => htot a (List.mem_cons_of_mem _ ha) b (List.mem_cons_of_mem _ hb))
        (fun a ha b hb c hc => htrans a (List.mem_cons_of_mem _ ha)
          b (List.mem_cons_of_mem _ hb) c (List.mem_cons_of_mem _ hc))
    · intro b hb
      exact htot x (by simp) b (List.mem_cons_of_mem _ (hsub b hb))
    · intro b hb c hc
      exact htrans x (by simp) b (List.mem_cons_of_mem _ (hsub b hb))
        c (List.mem_cons_of_mem _ (hsub c hc))

lemma filter_orderedInsert_of {α : Type} (r : α → α → Prop) [DecidableRel r]
    (q : α → Bool) (x : α) (s : List α)
    (h : ∀ b ∈ s, q x = true → q b = true → r x b) :
    (s.orderedInsert r x).filter q = ((x :: s).filter q) := by
  induction s with
  | nil => rfl
  | cons b t ih =>
    have ih' := ih (fun c hc hqx hqc => h c (List.mem_cons_of_mem _ hc) hqx hqc)
    by_cases hxb : r x b
    · rw [List.orderedInsert, if_pos hxb]
    · rw [List.orderedInsert, if_neg hxb]
      by_cases hqx : q x = true
      · have hqb : ¬ q b = true := fun hqb => hxb (h b (by simp) hqx hqb)
        rw [List.filter_cons_of_neg (by simpa using hqb), ih',
          List.filter_cons_of_pos hqx, List.filter_cons_of_pos hqx,
          List.filter_cons_of_neg (by simpa using hqb)]
      · rw [List.filter_cons, ih', List.filter_cons_of_neg (by simpa using hqx),
          List.filter_cons_of_neg (by simpa using hqx), List.filter_cons]

lemma filter_insertionSort_of {α : Type} (r : α → α → Prop) [DecidableRel r]
    (q : α → Bool) (l : List α)
    (h : ∀ a ∈ l, ∀ b ∈ l, q a = true → q b = true → r a b) :
    (List.insertionSort r l).filter q = l.filter q := by
  induction l with
  | nil => rfl
  | cons x t ih =>
    rw [List.insertionSort, filter_orderedInsert_of]
    · have ih' := ih (fun a ha b hb => h a (List.mem_cons_of_mem _ ha)
        b (List.mem_cons_of_mem _ hb))
      rw [List.filter_cons, List.filter_cons, ih']
    · intro b hb hqx hqb
      exact h x (by simp) b
        (List.mem_cons_of_mem _ ((List.perm_insertionSort r t).subset hb)) hqx hqb

/-! ### C5 -/

/-- C5: `by_order` sorts the variant indices by the §4.3 cascade.  The first
three conjuncts state that the permutation is a permutation of the index
range, that adjacent pairs are ranked `≤` by `compare_variants`, and that
ties keep the ascending index order (stability); the remaining conjuncts
characterize the cascade itself: empty `track_features` ranks above
non-empty, then higher version, then higher build number, then the
dependency score (positive total ⇒ the left variant ranks lower by `.gt`),
then higher timestamp, and all-equal gives `.eq`.  The two hypotheses are
the comparator-contract side conditions Rust's `sort_by` requires
(antisymmetry and transitivity over the sorted indices). -/
theorem c5_variants_order_sorted (env : Env) (self : PackageVariants)
    (hswap : ∀ i ∈ List.range self.variants.length,
      ∀ j ∈ List.range self.variants.length,
      compare_variants env self j i = (compare_variants env self i j).swap)
    (htrans : ∀ i ∈ List.range self.variants.length,
      ∀ j ∈ List.range self.variants.length,
      ∀ k ∈ List.range self.variants.length,
      compare_variants env self i j ≠ .gt → compare_variants env self j k ≠ .gt →
      compare_variants env self i k ≠ .gt) :
    (variants_order env self).Perm (List.range self.variants.length)
  ∧ (variants_order env self).Pairwise
      (fun i j => compare_variants env self i j ≠ .gt)
  ∧ (∀ i ∈ List.range self.variants.length,
      (variants_order env self).filter
          (fun j => compare_variants env self i j == .eq)
        = (List.range self.variants.length).filter
            (fun j => compare_variants env self i j == .eq))
  ∧ (∀ i j,
      (self.variants.getD i default).track_features.isEmpty = true →
      (self.variants.getD j default).track_features.isEmpty = false →
      compare_variants env self i j = .lt)
  ∧ (∀ i j,
      (self.variants.getD i default).track_features.isEmpty
        = (self.variants.getD j default).track_features.isEmpty →
      (self.variants.getD j default).version < (self.variants.getD i default).version →
      compare_variants env self i j = .lt)
  ∧ (∀ i j,
      (self.variants.getD i default).track_features.isEmpty
        = (self.variants.getD j default).track_features.isEmpty →
      (self.variants.getD i default).version = (self.variants.getD j default).version →
      (self.variants.getD j default).build_number
        < (self.variants.getD i default).build_number →
      compare_variants env self i j = .lt)
  ∧ (∀ i j,
      (self.variants.getD i default).track_features.isEmpty
        = (self.variants.getD j default).track_features.isEmpty →
      (self.variants.getD i default).version = (self.variants.getD j default).version →
      (self.variants.getD i default).build_number
        = (self.variants.getD j default).build_number →
      0 < depScore env self i j →
      compare_variants env self i j = .gt)
  ∧ (∀ i j,
      (self.variants.getD i default).track_features.isEmpty
        = (self.variants.getD j default).track_features.isEmpty →
      (self.variants.getD i default).version = (self.variants.getD j default).version →
      (self.variants.getD i default).build_number
        = (self.variants.getD j default).build_number →
      depScore env self i j = 0 →
      (self.variants.getD j default).timestamp
        < (self.variants.getD i default).timestamp →
      compare_variants env self i j = .lt)
  ∧ (∀ i j,
      (self.variants.getD i default).track_features.isEmpty
        = (self.variants.getD j default).track_features.isEmpty →
      (self.variants.getD i default).version = (self.variants.getD j default).version →
      (self.variants.getD i default).build_number
        = (self.variants.getD j default).build_number →
      depScore env self i j = 0 →
      (self.variants.getD i default).timestamp
        = (self.variants.getD j default).timestamp →
      compare_variants env self i j = .eq) := by
  have hboolself : ∀ x : Bool, compare x x = Ordering.eq := by decide
  have hnatself : ∀ x : Nat, compare x x = Ordering.eq :=
    fun x => Nat.compare_eq_eq.mpr rfl
  have htot : ∀ i ∈ List.range self.variants.length,
      ∀ j ∈ List.range self.variants.length,
      (compare_variants env self i j ≠ .gt) ∨ (compare_variants env self j i ≠ .gt) := by
    intro i hi j hj
    by_cases hgt : compare_variants env self i j = .gt
    · right
      rw [hswap i hi j hj, hgt]
      simp [Ordering.swap]
    · left
      exact hgt
  refine ⟨List.perm_insertionSort _ _, ?_, ?_, ?_, ?_, ?_, ?_, ?_, ?_⟩
  · exact pairwise_insertionSort_of _ _ htot
      (fun a ha b hb c hc => htrans a ha b hb c hc)
  · intro i hi
    have hbeq : ∀ o : Ordering, ((o == Ordering.eq) = true) ↔ o = Ordering.eq := by
      intro o
      cases o <;> decide
    apply filter_insertionSort_of
    intro a ha b hb hqa hqb
    have hia : compare_variants env self i a = .eq := (hbeq _).mp hqa
    have hib : compare_variants env self i b = .eq := (hbeq _).mp hqb
    have hai : compare_variants env self a i ≠ .gt := by
      rw [hswap i hi a ha, hia]; simp [Ordering.swap]
    have hibne : compare_variants env self i b ≠ .gt := by rw [hib]; simp
    exact htrans a ha i hi b hb hai hibne
  · intro i j h1 h2
    simp only [compare_variants]
    rw [h1, h2]
  · intro i j h1 h2
    simp only [compare_variants]
    rw [h1, hboolself, Nat.compare_eq_gt.mpr h2]
  · intro i j h1 h2 h3
    simp only [compare_variants]
    rw [h1, hboolself, h2, hnatself, Nat.compare_eq_gt.mpr h3]
  · intro i j h1 h2 h3 h4
    simp only [compare_variants]
    rw [h1, hboolself, h2, hnatself, h3, hnatself]
    have : compare (depScore env self i j) 0 = .gt := by
      rw [compare_gt_iff_gt]
      exact h4
    rw [this]
  · intro i j h1 h2 h3 h4 h5
    simp only [compare_variants]
    rw [h1, hboolself, h2, hnatself, h3, hnatself]
    have hsc : compare (depScore env self i j) 0 = .eq := by
      rw [compare_eq_iff_eq]
      exact h4
    rw [hsc, Nat.compare_eq_lt.mpr h5]
  · intro i j h1 h2 h3 h4 h5
    simp only [compare_variants]
    rw [h1, hboolself, h2, hnatself, h3, hnatself]
    have hsc : compare (depScore env self i j) 0 = .eq := by
      rw [compare_eq_iff_eq]
      exact h4
    rw [hsc, h5, hnatself]

/-- Witness for C5 at a concrete two-variant universe (version 2 ranks
before version 1). -/
theorem c5_variants_order_sorted_witness :
    (variants_order envA (packageVariants envA ("p"))).Perm
      (List.range (packageVariants envA ("p")).variants.length)
  ∧ compare_variants envA (packageVariants envA ("p")) 1 0 = .lt :=
  have h := c5_variants_order_sorted envA (packageVariants envA ("p"))
    (by decide) (by decide)
  ⟨h.1, h.2.2.2.2.1 1 0 (by decide) (by decide)⟩

/-! ### C3: the `find_highest_version` tracked-features fold -/

/-- A record of package `q`, version 1, carrying a (non-empty) tracked
feature. -/
def recT1 : PackageRecord :=
  { name := "q", version := 1, build := "0", build_number := 0, depends := [],
    constrains := [], track_features := ["feat"], timestamp := 0 }

/-- A record of package `q`, version 2, carrying a (non-empty) tracked
feature. -/
def recT2 : PackageRecord :=
  { name := "q", version := 2, build := "0", build_number := 0, depends := [],
    constrains := [], track_features := ["feat"], timestamp := 0 }

/-- An environment whose package `q` has two variants, both feature-tracked,
and whose specs match every record. -/
def envC3 : Env :=
  { msMatches := fun _ _ => true
    parse := fun s => .ok { tok := 0, name := some s }
    universes := fun nm => if nm = "q" then [recT1, recT2] else [] }

/-- C3 evidence: at a spec matching the two records of `q` — both of which
have non-empty `track_features` — the `find_highest_version` fold returns
the highest version `2` paired with `false`, although by the claim (and the
source's own comment, "whether all matching records have tracked features")
the flag should be `true`: the fold's combining step tests
`record.track_features.is_empty()` where only its seed negates the test. -/
theorem c3_find_highest_version_flag_bug :
    find_highest_version envC3 ⟨0, some ("q")⟩ = some (2, false)
  ∧ (∀ r ∈ (packageVariants envC3 ("q")).variants,
      envC3.msMatches ⟨0, some ("q")⟩ r = true)
  ∧ (∀ r ∈ (packageVariants envC3 ("q")).variants,
      r.track_features.isEmpty = false) := by
  refine ⟨by decide, by decide, by decide⟩

/-! ### C1: `choose_package_version` -/

/-- The population of a `(package name, candidate set)` pair:
`available_variant_count_in_range` over the pair's universe. -/
def pairPopulation (env : Env) (p : String × PackageVariantSet) : Nat :=
  available_variant_count_in_range (packageVariants env p.1) p.2

/-- The first loop of `choose_package_version`: keep the pair whose
population is strictly smaller than the current minimum (so the earliest
pair wins ties).  The source seeds `min_dependency_count` with
`usize::MAX`, which the first pair's count (bounded by a in-memory vector
length) always undercuts, so the loop is modelled with the first pair as
the seed. -/
def select_min_go (env : Env) (min_package : String × PackageVariantSet) :
    List (String × PackageVariantSet) → String × PackageVariantSet
  | [] => min_package
  | p :: rest =>
    if pairPopulation env p < pairPopulation env min_package then
      select_min_go env p rest
    else
      select_min_go env min_package rest

/-- The result of the population-minimizing loop (`min_package`): `none`
for an empty iterator. -/
def selectMinPair (env : Env) :
    List (String × PackageVariantSet) → Option (String × PackageVariantSet)
  | [] => none
  | p :: rest => some (select_min_go env p rest)

/-- `Index::choose_package_version`: pick the pair with the (globally)
smallest population, then return the first index of the universe's
`by_order` permutation contained in that pair's candidate set; if the
minimizing loop kept nothing or no ordered index is contained, fail with
`no packages found that can be chosen`.  A chosen variant is returned as
its index in the chosen package's universe. -/
def choose_package_version (env : Env)
    (potential_packages : List (String × PackageVariantSet)) :
    Except String (String × Option Nat) :=
  match selectMinPair env potential_packages with
  | some sel =>
    match (variants_order env (packageVariants env sel.1)).find?
        (fun idx => sel.2.contains_variant_index idx) with
    | some variant_idx => .ok (sel.1, some variant_idx)
    | none => .error ("no packages found that can be chosen")
  | none => .error ("no packages found that can be chosen")

/-- Well-formedness of a pair passed to `choose_package_version`: a
`Discrete` candidate set's bit vector has the length of its package's
universe (the `BitVec` invariant of the source). -/
def pairWF (env : Env) (p : String × PackageVariantSet) : Prop :=
  match p.2 with
  | .Discrete l => l.length = (packageVariants env p.1).variants.length
  | _ => True

instance (env : Env) (p : String × PackageVariantSet) : Decidable (pairWF env p) := by
  cases hp : p.2 <;> simp [pairWF, hp] <;> infer_instance

lemma select_min_go_spec (env : Env) :
    ∀ (rest : List (String × PackageVariantSet)) (q : String × PackageVariantSet),
    ∃ l1 l2, q :: rest = l1 ++ select_min_go env q rest :: l2
      ∧ (∀ p ∈ q :: rest, pairPopulation env (select_min_go env q rest) ≤ pairPopulation env p)
      ∧ (∀ p ∈ l1, pairPopulation env (select_min_go env q rest) < pairPopulation env p) := by
  intro rest
  induction rest with
  | nil =>
    intro q
    exact ⟨[], [], rfl, by simp [select_min_go], by simp⟩
  | cons p rest ih =>
    intro q
    by_cases hlt : pairPopulation env p < pairPopulation env q
    · obtain ⟨l1, l2, hdec, hle, hstrict⟩ := ih p
      have hgo : select_min_go env q (p :: rest) = select_min_go env p rest := by
        rw [select_min_go, if_pos hlt]
      refine ⟨q :: l1, l2, ?_, ?_, ?_⟩
      · rw [hgo]
        simpa using hdec
      · intro x hx
        rw [hgo]
        rcases List.mem_cons.mp hx with rfl | hx'
        · have := hle p (by simp)
          omega
        · exact hle x hx'
      · intro x hx
        rw [hgo]
        rcases List.mem_cons.mp hx with rfl | hx'
        · have := hle p (by simp)
          omega
        · exact hstrict x hx'
    · obtain ⟨l1, l2, hdec, hle, hstrict⟩ := ih q
      have hgo : select_min_go env q (p :: rest) = select_min_go env q rest := by
        rw [select_min_go, if_neg hlt]
      cases l1 with
      | nil =>
        have hinj := hdec
        rw [List.nil_append] at hinj
        injection hinj with hq hrest
        refine ⟨[], p :: rest, ?_, ?_, by simp⟩
        · rw [hgo, ← hq, List.nil_append]
        · intro x hx
          rw [hgo, ← hq]
          rcases List.mem_cons.mp hx with rfl | hx'
          · exact le_refl _
          · rcases List.mem_cons.mp hx' with rfl | hx''
            · omega
            · have := hle x (List.mem_cons_of_mem _ hx'')
              rw [← hq] at this
              exact this
      | cons a l1' =>
        rw [List.cons_append] at hdec
        injection hdec with ha hrest
        have hstra : pairPopulation env (select_min_go env q rest)
            < pairPopulation env q := by
          have h0 := hstrict a (by simp)
          rw [← ha] at h0
          exact h0
        refine ⟨q :: p :: l1', l2, ?_, ?_, ?_⟩
        · rw [hgo]
          simp only [List.cons_append]
          rw [← hrest]
        · intro x hx
          rw [hgo]
          rcases List.mem_cons.mp hx with rfl | hx'
          · exact hle x (by simp)
          · rcases List.mem_cons.mp hx' with rfl | hx''
            · omega
            · exact hle x (List.mem_cons_of_mem _ hx'')
        · intro x hx
          rw [hgo]
          rcases List.mem_cons.mp hx with rfl | hx'
          · exact hstra
          · rcases List.mem_cons.mp hx' with rfl | hx''
            · omega
            · exact hstrict x (List.mem_cons_of_mem _ hx'')

lemma contains_false_of_population_zero (env : Env)
    (sel : String × PackageVariantSet) (_hwf : pairWF env sel)
    (hzero : pairPopulation env sel = 0) :
    ∀ idx ∈ variants_order env (packageVariants env sel.1),
      sel.2.contains_variant_index idx = false := by
  intro idx hidx
  have hidxrange : idx ∈ List.range (packageVariants env sel.1).variants.length :=
    (List.perm_insertionSort _ _).subset hidx
  have hidxlt := List.mem_range.mp hidxrange
  cases hset : sel.2 with
  | Empty => rfl
  | Full =>
    exfalso
    unfold pairPopulation available_variant_count_in_range at hzero
    rw [hset] at hzero
    have hz : (packageVariants env sel.1).variants.length = 0 := hzero
    omega
  | Discrete l =>
    unfold pairPopulation available_variant_count_in_range at hzero
    rw [hset] at hzero
    have hzero : popcount l = 0 := hzero
    have hall : ∀ b ∈ l, b = false := by
      intro b hb
      by_contra hbne
      have : b = true := by revert hbne; cases b <;> simp
      have := popcount_pos_iff l |>.mpr ⟨b, hb, this⟩
      omega
    show l.getD idx false = false
    rcases Nat.lt_or_ge idx l.length with hlt | hge
    · rw [List.getD_eq_getElem _ _ hlt]
      exact hall _ (List.getElem_mem hlt)
    · exact List.getD_eq_default _ _ hge

lemma contains_some_of_population_pos (env : Env)
    (sel : String × PackageVariantSet) (hwf : pairWF env sel)
    (hpos : 0 < pairPopulation env sel) :
    ∃ idx ∈ variants_order env (packageVariants env sel.1),
      sel.2.contains_variant_index idx = true := by
  cases hset : sel.2 with
  | Empty =>
    exfalso
    unfold pairPopulation available_variant_count_in_range at hpos
    rw [hset] at hpos
    have hz : (0 : Nat) < 0 := hpos
    omega
  | Full =>
    unfold pairPopulation available_variant_count_in_range at hpos
    rw [hset] at hpos
    have hpos : 0 < (packageVariants env sel.1).variants.length := hpos
    refine ⟨0, ?_, rfl⟩
    exact (List.perm_insertionSort _ _).mem_iff.mpr (List.mem_range.mpr hpos)
  | Discrete l =>
    unfold pairPopulation available_variant_count_in_range at hpos
    rw [hset] at hpos
    have hpos : 0 < popcount l := hpos
    obtain ⟨i, hi, hval⟩ := exists_true_idx hpos
    have hlen : l.length = (packageVariants env sel.1).variants.length := by
      have := hwf
      rw [pairWF, hset] at this
      exact this
    refine ⟨i, ?_, ?_⟩
    · exact (List.perm_insertionSort _ _).mem_iff.mpr
        (List.mem_range.mpr (hlen ▸ hi))
    · show l.getD i false = true
      rw [List.getD_eq_getElem _ _ hi]
      exact hval

/-- C1 counterexample: two pairs, the first with population 0 (`Empty`) and
the second with population 1 (`Full` over a one-variant universe).  By the
claim the smallest *non-zero* pair `("b", Full)` should be selected and its
first ordered index returned (`.ok ("b", some 0)`); the code instead
latches the zero-population pair and fails with
`no packages found that can be chosen`. -/
theorem c1_counterexample_zero_population_latch :
    pairPopulation envA ("a", .Empty) = 0
  ∧ pairPopulation envA ("p", .Full) = 2
  ∧ PackageVariantSet.Full.contains_variant_index 0 = true
  ∧ choose_package_version envA [("a", .Empty), ("p", .Full)]
      = .error ("no packages found that can be chosen")
  ∧ choose_package_version envA [("p", .Full)] = .ok ("p", some 1) :=
  ⟨rfl, by decide, rfl, rfl, rfl⟩

/-- C1 amended: `choose_package_version` selects the first pair attaining
the smallest population *including zero*; when that minimum is zero — even
if other pairs are non-zero — the call fails with
`no packages found that can be chosen`; otherwise it returns the selected
pair's name together with the first index of the universe's `by_order`
permutation that the candidate set contains. -/
theorem c1_amended_choose_package_version (env : Env)
    (pairs : List (String × PackageVariantSet)) (hne : pairs ≠ [])
    (hwf : ∀ p ∈ pairs, pairWF env p) :
    ∃ sel l1 l2, pairs = l1 ++ sel :: l2
  ∧ (∀ p ∈ pairs, pairPopulation env sel ≤ pairPopulation env p)
  ∧ (∀ p ∈ l1, pairPopulation env sel < pairPopulation env p)
  ∧ (pairPopulation env sel = 0 →
      choose_package_version env pairs = .error ("no packages found that can be chosen"))
  ∧ (0 < pairPopulation env sel → ∃ j,
      (variants_order env (packageVariants env sel.1)).find?
          (fun idx => sel.2.contains_variant_index idx) = some j
    ∧ choose_package_version env pairs = .ok (sel.1, some j)
    ∧ sel.2.contains_variant_index j = true) := by
  cases pairs with
  | nil => exact absurd rfl hne
  | cons q rest =>
    obtain ⟨l1, l2, hdec, hle, hstrict⟩ := select_min_go_spec env rest q
    set sel := select_min_go env q rest with hsel
    have hselmem : sel ∈ q :: rest := by
      rw [hdec]
      exact List.mem_append_right _ (by simp)
    refine ⟨sel, l1, l2, hdec, hle, hstrict, ?_, ?_⟩
    · intro hzero
      have hnone : (variants_order env (packageVariants env sel.1)).find?
          (fun idx => sel.2.contains_variant_index idx) = none := by
        rw [List.find?_eq_none]
        intro idx hidx
        rw [contains_false_of_population_zero env sel (hwf sel hselmem) hzero idx hidx]
        simp
      have hselp : selectMinPair env (q :: rest) = some sel := by
        rw [selectMinPair, hsel]
      simp only [choose_package_version, hselp, hnone]
    · intro hpos
      obtain ⟨idx, hidxmem, hidxval⟩ :=
        contains_some_of_population_pos env sel (hwf sel hselmem) hpos
      have hsome : ((variants_order env (packageVariants env sel.1)).find?
          (fun idx => sel.2.contains_variant_index idx)).isSome = true := by
        rw [List.find?_isSome]
        exact ⟨idx, hidxmem, hidxval⟩
      obtain ⟨j, hj⟩ := Option.isSome_iff_exists.mp hsome
      refine ⟨j, hj, ?_, List.find?_some hj⟩
      have hselp : selectMinPair env (q :: rest) = some sel := by
        rw [selectMinPair, hsel]
      simp only [choose_package_version, hselp, hj]

/-- Witness for C1 (amended) at a single Full pair over the two-variant
universe of `p`. -/
theorem c1_amended_choose_package_version_witness :
    ∃ sel l1 l2, [(("p" : String), PackageVariantSet.Full)] = l1 ++ sel :: l2
  ∧ (∀ p ∈ [(("p" : String), PackageVariantSet.Full)],
      pairPopulation envA sel ≤ pairPopulation envA p)
  ∧ (∀ p ∈ l1, pairPopulation envA sel < pairPopulation envA p)
  ∧ (pairPopulation envA sel = 0 →
      choose_package_version envA [(("p" : String), PackageVariantSet.Full)]
        = .error ("no packages found that can be chosen"))
  ∧ (0 < pairPopulation envA sel → ∃ j,
      (variants_order envA (packageVariants envA sel.1)).find?
          (fun idx => sel.2.contains_variant_index idx) = some j
    ∧ choose_package_version envA [(("p" : String), PackageVariantSet.Full)]
        = .ok (sel.1, some j)
    ∧ sel.2.contains_variant_index j = true) :=
  c1_amended_choose_package_version envA [(("p" : String), PackageVariantSet.Full)]
    (by decide) (by decide)

/-! ### C4: `Index::get_dependencies` -/

/-- `pubgrub::solver::Requirement`: a required or merely constrained
candidate set. -/
inductive Requirement
  | required (s : PackageVariantSet)
  | constrained (s : PackageVariantSet)
deriving DecidableEq, Repr

/-- `pubgrub::solver::Dependencies`: either unknowable or a map from
package name to requirement (the `DependencyConstraints` hash map, modelled
as an association list with unique keys). -/
inductive Dependencies
  | unknown
  | known (m : List (String × Requirement))
deriving DecidableEq, Repr

/-- `result.entry(name).and_modify(f).or_insert(dflt)` on the association
map. -/
def updateOrInsert (m : List (String × Requirement)) (name : String)
    (f : Requirement → Requirement) (dflt : Requirement) :
    List (String × Requirement) :=
  match m with
  | [] => [(name, dflt)]
  | (k, v) :: rest =>
    if k = name then (k, f v) :: rest
    else (k, v) :: updateOrInsert rest name f dflt

/-- The `constrains` loop of `get_dependencies`: parse each constraint,
require it to carry a package name (the source's
`expect("matchspec without package name")` abort is modelled as an
exceptional result), and merge a `Constrained(range)` entry, intersecting
with an existing entry of either kind. -/
def constrainsLoop (env : Env) (result : List (String × Requirement)) :
    List String → Except String (List (String × Requirement))
  | [] => .ok result
  | constraint :: rest =>
    match env.parse constraint with
    | .error e => .error e
    | .ok match_spec =>
      match match_spec.name with
      | none => .error ("matchspec without package name")
      | some name =>
        let version_set := packageVariants env name
        let range := range_from_matchspec env version_set match_spec
        constrainsLoop env
          (updateOrInsert result name
            (fun req => match req with
              | .required s => .required (s.intersection range)
              | .constrained s => .constrained (s.intersection range))
            (.constrained range)) rest

/-- `str::starts_with`, modelled on the character list (the source compares
the UTF-8 byte prefix; for valid UTF-8 and a whole-character pattern the
two coincide). -/
def starts_with (s pre : String) : Bool :=
  pre.data.isPrefixOf s.data

/-- The `depends` loop of `get_dependencies`: for each (pre-parsed) spec,
require a package name; if the depended-on universe is empty, return
`Unknown` for the whole variant when the name begins with `__`, else fail
with `no entries found for package`; otherwise merge a `Required(range)`
entry (an existing entry of either kind is upgraded to `Required` with the
intersected range). -/
def dependsLoop (env : Env) (result : List (String × Requirement)) :
    List MatchSpec → Except String Dependencies
  | [] => .ok (.known result)
  | match_spec :: rest =>
    match match_spec.name with
    | none => .error ("matchspec without package name")
    | some name =>
      let version_set := packageVariants env name
      if version_set.variants.isEmpty then
        if starts_with name ("__") then .ok .unknown
        else .error ("no entries found for package `" ++ name ++ "`")
      else
        let range := range_from_matchspec env version_set match_spec
        dependsLoop env
          (updateOrInsert result name
            (fun req => .required (match req with
              | .required s => s.intersection range
              | .constrained s => s.intersection range))
            (.required range)) rest

/-- `Index::get_dependencies` for the record at `index` of `self`: parse
the record's `depends` (propagating a parse error), run the `constrains`
loop, then the `depends` loop. -/
def get_dependencies (env : Env) (self : PackageVariants) (index : Nat) :
    Except String Dependencies :=
  match dependencies env self index with
  | .error e => .error e
  | .ok deps =>
    match constrainsLoop env [] (self.variants.getD index default).constrains with
    | .error e => .error e
    | .ok result => dependsLoop env result deps

/-- A record depending on `foo` (empty universe, no sentinel) first and
`__bar` (empty universe, sentinel) second. -/
def recDepMixed : PackageRecord :=
  { name := "pkg", version := 1, build := "0", build_number := 0,
    depends := ["foo", "__bar"], constrains := [], track_features := [],
    timestamp := 0 }

/-- A record depending only on the absent virtual capability `__bar`. -/
def recDepVirtual : PackageRecord :=
  { name := "pkg2", version := 1, build := "0", build_number := 0,
    depends := ["__bar"], constrains := [], track_features := [],
    timestamp := 0 }

/-- An environment where `foo` and `__bar` have empty universes and `pkg`,
`pkg2` carry the two records above. -/
def envC4 : Env :=
  { msMatches := fun _ _ => true
    parse := fun s => .ok { tok := 0, name := some s }
    universes := fun nm =>
      if nm = "pkg" then [recDepMixed]
      else if nm = "pkg2" then [recDepVirtual]
      else [] }

/-- C4 counterexample: the variant `pkg` depends on both `foo` (empty
universe, no `__` sentinel) and `__bar` (empty universe, `__` sentinel).
The claim, instantiated at the dependency `__bar`, requires
`get_dependencies` to return `Unknown`; the code instead processes the
`depends` list in order, hits `foo` first and fails with
`no entries found for package`. -/
theorem c4_counterexample_first_empty_decides :
    ((packageVariants envC4 ("pkg")).variants.getD 0 default).depends
      = ["foo", "__bar"]
  ∧ envC4.universes ("__bar") = []
  ∧ starts_with ("__bar") ("__") = true
  ∧ get_dependencies envC4 (packageVariants envC4 ("pkg")) 0
      = .error ("no entries found for package `foo`") :=
  ⟨rfl, rfl, by decide, rfl⟩

lemma dependsLoop_through (env : Env) :
    ∀ (pre : List MatchSpec) (m : List (String × Requirement))
      (rest : List MatchSpec),
    (∀ s ∈ pre, ∃ n, s.name = some n ∧ (packageVariants env n).variants ≠ []) →
    ∃ m', dependsLoop env m (pre ++ rest) = dependsLoop env m' rest := by
  intro pre
  induction pre with
  | nil => exact fun m rest _ => ⟨m, rfl⟩
  | cons s pre ih =>
    intro m rest hpre
    obtain ⟨n, hn, hne⟩ := hpre s (by simp)
    have hempty : (packageVariants env n).variants.isEmpty = false := by
      cases hv : (packageVariants env n).variants with
      | nil => exact absurd hv hne
      | cons a t => rfl
    obtain ⟨m', hm'⟩ := ih (updateOrInsert m n
        (fun req => Requirement.required (match req with
          | Requirement.required s1 =>
            s1.intersection (range_from_matchspec env (packageVariants env n) s)
          | Requirement.constrained s1 =>
            s1.intersection (range_from_matchspec env (packageVariants env n) s)))
        (Requirement.required (range_from_matchspec env (packageVariants env n) s)))
      rest (fun t ht => hpre t (List.mem_cons_of_mem _ ht))
    refine ⟨m', ?_⟩
    rw [List.cons_append]
    simp only [dependsLoop, hn, hempty, Bool.false_eq_true, if_false]
    exact hm'

/-- C4 amended: processing `depends` in order, the FIRST dependency whose
universe is empty decides the outcome: if its name begins with `__` the
whole variant's dependencies are `Unknown`, otherwise `get_dependencies`
fails with `no entries found for package <name>` (with the name quoted in
backticks as the source formats it).  When several dependencies have empty
universes, later ones are never reached — the claim's per-dependency
quantification fails for them (see the counterexample). -/
theorem c4_amended_get_dependencies (env : Env) (self : PackageVariants)
    (index : Nat) (specs : List MatchSpec) (m0 : List (String × Requirement))
    (pre post : List MatchSpec) (spec0 : MatchSpec) (nm : String)
    (hdeps : dependencies env self index = .ok specs)
    (hcons : constrainsLoop env []
      (self.variants.getD index default).constrains = .ok m0)
    (hsplit : specs = pre ++ spec0 :: post)
    (hpre : ∀ s ∈ pre, ∃ n, s.name = some n ∧ (packageVariants env n).variants ≠ [])
    (hname : spec0.name = some nm)
    (hempty : (packageVariants env nm).variants = []) :
    (starts_with nm ("__") = true →
      get_dependencies env self index = .ok .unknown)
  ∧ (starts_with nm ("__") = false →
      get_dependencies env self index
        = .error ("no entries found for package `" ++ nm ++ "`")) := by
  have hgd : get_dependencies env self index = dependsLoop env m0 specs := by
    unfold get_dependencies
    rw [hdeps, hcons]
  obtain ⟨m', hm'⟩ := dependsLoop_through env pre m0 (spec0 :: post) hpre
  rw [hsplit, hm'] at hgd
  have hisEmpty : (packageVariants env nm).variants.isEmpty = true := by
    rw [hempty]
    rfl
  constructor
  · intro hsw
    rw [hgd]
    simp only [dependsLoop, hname, hisEmpty, hsw, if_true]
  · intro hsw
    rw [hgd]
    simp only [dependsLoop, hname, hisEmpty, hsw, Bool.false_eq_true, if_false, if_true]

/-- Witness for C4 (amended): a variant whose sole dependency is the absent
virtual capability `__bar` gets `Unknown` dependencies. -/
theorem c4_amended_get_dependencies_witness :
    get_dependencies envC4 (packageVariants envC4 ("pkg2")) 0 = .ok .unknown :=
  (c4_amended_get_dependencies envC4 (packageVariants envC4 ("pkg2")) 0
    [⟨0, some ("__bar")⟩] [] [] [] ⟨0, some ("__bar")⟩ ("__bar")
    rfl rfl rfl (by simp) rfl rfl).1 (by decide)

/-- Witness for C6 at a concrete two-variant universe and the spec matching
only version 1. -/
theorem c6_range_from_matchspec_spec_witness :
    (range_from_matchspec envA (packageVariants envA ("p")) ⟨1, none⟩).contains_variant_index 0
      = envA.msMatches ⟨1, none⟩ ((packageVariants envA ("p")).variants.getD 0 default)
  ∧ ((range_from_matchspec envA (packageVariants envA ("p")) ⟨1, none⟩ = .Full)
      ↔ ∀ r ∈ (packageVariants envA ("p")).variants, envA.msMatches ⟨1, none⟩ r = true) :=
  have h := c6_range_from_matchspec_spec envA (packageVariants envA ("p")) ⟨1, none⟩
  ⟨h.2.1 0 (by decide), h.2.2.2 (by decide)⟩

/-! ### C9: lock-file serialization order (`impl Serialize for CondaLock`) -/

/-- `LockedDependencyKind`: the `conda` payload carries the `build` compared
by the serializer; the `pip` payload stands for the fields the comparator
never consults. -/
inductive LockedDependencyKind
  | conda (build : Nat)
  | pip (payload : Nat)
deriving DecidableEq, Repr

/-- `LockedDependency` (the fields the serializer's comparator consults).
`name`, `platform` and `version` are abstract totally ordered keys,
modelled as `Nat` (their concrete types live outside the given sources). -/
structure LockedDependency where
  name : Nat
  platform : Nat
  version : Nat
  kind : LockedDependencyKind
deriving DecidableEq, Repr

/-- The kind tie-breaker of the serializer's comparator: conda-conda
compares `build`, pip-pip is equal, pip sorts before non-pip. -/
def lockCmpKind : LockedDependencyKind → LockedDependencyKind → Ordering
  | .conda a, .conda b => compare a b
  | .pip _, .pip _ => .eq
  | .pip _, _ => .lt
  | _, .pip _ => .gt

/-- The serializer's comparator: name, then platform, then version, then
the kind tie-breaker. -/
def lockCmp (a b : LockedDependency) : Ordering :=
  (compare a.name b.name).then
    ((compare a.platform b.platform).then
      ((compare a.version b.version).then (lockCmpKind a.kind b.kind)))

/-- The sorted `package` list emitted by `Serialize for CondaLock`
(`sorted_deps.sort_by(..)`, a stable sort, modelled by the stable insertion
sort). -/
def sortedLockPackages (package : List LockedDependency) :
    List LockedDependency :=
  List.insertionSort (fun a b => lockCmp a b ≠ .gt) package

/-- Rank of a kind in the comparator: pip sorts before conda. -/
def kindRank : LockedDependencyKind → Nat
  | .pip _ => 0
  | .conda _ => 1

/-- The build the comparator consults (0 for pip, which never reaches the
build comparison). -/
def kindBuild : LockedDependencyKind → Nat
  | .pip _ => 0
  | .conda b => b

lemma then_eq_gt_iff (o₁ o₂ : Ordering) :
    o₁.then o₂ = .gt ↔ (o₁ = .gt ∨ (o₁ = .eq ∧ o₂ = .gt)) := by
  cases o₁ <;> simp [Ordering.then]

lemma then_eq_eq_iff (o₁ o₂ : Ordering) :
    o₁.then o₂ = .eq ↔ (o₁ = .eq ∧ o₂ = .eq) := by
  cases o₁ <;> cases o₂ <;> simp [Ordering.then]

lemma lockCmpKind_gt_iff (k₁ k₂ : LockedDependencyKind) :
    lockCmpKind k₁ k₂ = .gt
      ↔ (kindRank k₂ < kindRank k₁
        ∨ (kindRank k₁ = kindRank k₂ ∧ kindBuild k₂ < kindBuild k₁)) := by
  cases k₁ <;> cases k₂ <;>
    simp [lockCmpKind, kindRank, kindBuild, Nat.compare_eq_gt]

lemma lockCmpKind_eq_iff (k₁ k₂ : LockedDependencyKind) :
    lockCmpKind k₁ k₂ = .eq
      ↔ (kindRank k₁ = kindRank k₂ ∧ kindBuild k₁ = kindBuild k₂) := by
  cases k₁ <;> cases k₂ <;>
    simp [lockCmpKind, kindRank, kindBuild, Nat.compare_eq_eq]

lemma lockCmp_gt_iff (a b : LockedDependency) :
    lockCmp a b = .gt
      ↔ (b.name < a.name
        ∨ (a.name = b.name ∧ (b.platform < a.platform
          ∨ (a.platform = b.platform ∧ (b.version < a.version
            ∨ (a.version = b.version ∧ (kindRank b.kind < kindRank a.kind
              ∨ (kindRank a.kind = kindRank b.kind
                ∧ kindBuild b.kind < kindBuild a.kind)))))))) := by
  simp [lockCmp, then_eq_gt_iff, then_eq_eq_iff, Nat.compare_eq_gt,
    Nat.compare_eq_eq, lockCmpKind_gt_iff]

lemma lockCmp_eq_iff (a b : LockedDependency) :
    lockCmp a b = .eq
      ↔ (a.name = b.name ∧ a.platform = b.platform ∧ a.version = b.version
        ∧ kindRank a.kind = kindRank b.kind
        ∧ kindBuild a.kind = kindBuild b.kind) := by
  simp [lockCmp, then_eq_eq_iff, Nat.compare_eq_eq, lockCmpKind_eq_iff]

lemma lockLe_trans (a b c : LockedDependency) (hab : lockCmp a b ≠ .gt)
    (hbc : lockCmp b c ≠ .gt) : lockCmp a c ≠ .gt := by
  rw [Ne, lockCmp_gt_iff] at hab hbc ⊢
  omega

lemma lockLe_total (a b : LockedDependency) :
    lockCmp a b ≠ .gt ∨ lockCmp b a ≠ .gt := by
  rw [Ne, Ne, lockCmp_gt_iff, lockCmp_gt_iff]
  omega

/-- C9: the emitted `package` list is a permutation of the input, adjacent
entries are ordered by the comparator (name, then platform, then version,
then — both conda — build, with pip before non-pip), and the sort is
stable: every comparator-equality class keeps its input order.  The final
conjuncts characterize the comparator on same-`(name, platform, version)`
entries and on the lexicographic prefixes. -/
theorem c9_conda_lock_serialize_order (package : List LockedDependency) :
    (sortedLockPackages package).Perm package
  ∧ (sortedLockPackages package).Pairwise (fun a b => lockCmp a b ≠ .gt)
  ∧ (∀ c, (sortedLockPackages package).filter (fun x => lockCmp x c == .eq)
      = package.filter (fun x => lockCmp x c == .eq))
  ∧ (∀ a b : LockedDependency, a.name = b.name → a.platform = b.platform →
      a.version = b.version →
      (∀ pa cb, a.kind = .pip pa → b.kind = .conda cb → lockCmp a b = .lt)
      ∧ (∀ pa pb, a.kind = .pip pa → b.kind = .pip pb → lockCmp a b = .eq)
      ∧ (∀ ca cb, a.kind = .conda ca → b.kind = .conda cb →
          lockCmp a b = compare ca cb))
  ∧ (∀ a b : LockedDependency, a.name < b.name → lockCmp a b = .lt)
  ∧ (∀ a b : LockedDependency, a.name = b.name → a.platform < b.platform →
      lockCmp a b = .lt)
  ∧ (∀ a b : LockedDependency, a.name = b.name → a.platform = b.platform →
      a.version < b.version → lockCmp a b = .lt) := by
  have hnatself : ∀ x : Nat, compare x x = Ordering.eq :=
    fun x => Nat.compare_eq_eq.mpr rfl
  refine ⟨List.perm_insertionSort _ _, ?_, ?_, ?_, ?_, ?_, ?_⟩
  · exact pairwise_insertionSort_of _ _
      (fun a _ b _ => lockLe_total a b)
      (fun a _ b _ c _ => lockLe_trans a b c)
  · intro c
    apply filter_insertionSort_of
    intro a _ b _ hqa hqb
    have hac : lockCmp a c = .eq := by
      have : (lockCmp a c == Ordering.eq) = true := hqa
      revert this
      cases lockCmp a c <;> decide
    have hbc : lockCmp b c = .eq := by
      have : (lockCmp b c == Ordering.eq) = true := hqb
      revert this
      cases lockCmp b c <;> decide
    rw [lockCmp_eq_iff] at hac hbc
    rw [Ne, lockCmp_gt_iff]
    omega
  · intro a b h1 h2 h3
    refine ⟨?_, ?_, ?_⟩
    · intro pa cb hka hkb
      simp [lockCmp, h1, h2, h3, hnatself, hka, hkb, lockCmpKind, Ordering.then]
    · intro pa pb hka hkb
      simp [lockCmp, h1, h2, h3, hnatself, hka, hkb, lockCmpKind, Ordering.then]
    · intro ca cb hka hkb
      simp [lockCmp, h1, h2, h3, hnatself, hka, hkb, lockCmpKind, Ordering.then]
  · intro a b h
    simp [lockCmp, Nat.compare_eq_lt.mpr h, Ordering.then]
  · intro a b h1 h2
    simp [lockCmp, h1, hnatself, Nat.compare_eq_lt.mpr h2, Ordering.then]
  · intro a b h1 h2 h3
    simp [lockCmp, h1, h2, hnatself, Nat.compare_eq_lt.mpr h3, Ordering.then]

/-- A concrete pip-kind locked dependency. -/
def dPip1 : LockedDependency := { name := 1, platform := 1, version := 1, kind := .pip 0 }

/-- A concrete conda-kind locked dependency with the same
(name, platform, version). -/
def dConda1 : LockedDependency := { name := 1, platform := 1, version := 1, kind := .conda 7 }

/-- Witness for C9: sorting a two-entry lock moves the pip entry before the
conda entry of the same (name, platform, version). -/
theorem c9_conda_lock_serialize_order_witness :
    (sortedLockPackages [dConda1, dPip1]).Perm [dConda1, dPip1]
  ∧ lockCmp dPip1 dConda1 = .lt :=
  have h := c9_conda_lock_serialize_order [dConda1, dPip1]
  ⟨h.1, (h.2.2.2.1 dPip1 dConda1 rfl rfl rfl).1 0 7 rfl rfl⟩

/-! ### C10: root-universe replacement in `Index::solve` -/

/-- `HashMap::insert` on the universe cache (association list with unique
keys): replace the entry in place or append.  Universes are identified by
the `Rc` pointer of their `PackageVariants`, modelled as a `Nat` id. -/
def insertReplace (cache : List (String × Nat)) (nm : String) (id : Nat) :
    List (String × Nat) :=
  match cache with
  | [] => [(nm, id)]
  | (k, v) :: rest =>
    if k = nm then (nm, id) :: rest else (k, v) :: insertReplace rest nm id

/-- `Index::add_package`: register a one-variant universe, aborting
(`duplicate package entry`; the source panics, modelled as an exceptional
result) when a universe is already cached under the name. -/
def add_package (cache : List (String × Nat)) (nm : String) (fresh : Nat) :
    Except String (List (String × Nat)) :=
  match cache.lookup nm with
  | some _ => .error ("duplicate package entry for `" ++ nm ++ "`")
  | none => .ok (insertReplace cache nm fresh)

/-- The root-elision filter of `Index::solve`: keep the solution entries
whose universe is not pointer-identical (`Rc::ptr_eq`) to the synthetic
root universe. -/
def solveFilterRoot (solution : List (String × Nat)) (rootId : Nat) :
    List (String × Nat) :=
  solution.filter (fun v => v.2 != rootId)

lemma lookup_insertReplace_self (cache : List (String × Nat)) (nm : String)
    (id : Nat) : (insertReplace cache nm id).lookup nm = some id := by
  induction cache with
  | nil => simp [insertReplace]
  | cons kv rest ih =>
    obtain ⟨k, v⟩ := kv
    by_cases hk : k = nm
    · simp [insertReplace, hk, List.lookup]
    · simp only [insertReplace, if_neg hk]
      rw [List.lookup]
      have : (nm == k) = false := by
        simp [Ne.symm hk]
      rw [this]
      exact ih

lemma lookup_mem {cache : List (String × Nat)} {nm : String} {v : Nat}
    (h : cache.lookup nm = some v) : (nm, v) ∈ cache := by
  induction cache with
  | nil => simp [List.lookup] at h
  | cons kv rest ih =>
    obtain ⟨k, w⟩ := kv
    by_cases hk : nm = k
    · subst hk
      simp [List.lookup] at h
      simp [h]
    · have hbeq : (nm == k) = false := by
        simp [hk]
      rw [List.lookup, hbeq] at h
      exact List.mem_cons_of_mem _ (ih h)

/-- C10: `solve` registers its synthetic one-variant root universe under
`__ROOT__` with a plain cache insert, silently replacing any universe
previously registered under that name (while `add_package` on the same
cache aborts with `duplicate package entry`); since every variant of a
solution is built by `choose_package_version` from the cache as updated,
any solution entry named `__ROOT__` carries the synthetic universe, and the
`Rc::ptr_eq` filter removes it — so no entry named `__ROOT__` (in
particular nothing from the pre-existing universe registered under that
name) survives into the solve result.  Hypotheses: `hold` a universe was already cached under
`__ROOT__`; `hsol` every solution entry's universe is the cache entry for
its name (the construction in `choose_package_version`); `hfresh` the
fresh `Rc` of the synthetic root is distinct from every cached universe. -/
theorem c10_solve_root_replacement (cache : List (String × Nat))
    (rootId oldId : Nat) (solution : List (String × Nat))
    (hold : cache.lookup ("__ROOT__") = some oldId)
    (hsol : ∀ v ∈ solution,
      (insertReplace cache ("__ROOT__") rootId).lookup v.1 = some v.2)
    (hfresh : ∀ kv ∈ cache, kv.2 ≠ rootId) :
    (insertReplace cache ("__ROOT__") rootId).lookup ("__ROOT__") = some rootId
  ∧ add_package cache ("__ROOT__") rootId
      = .error ("duplicate package entry for `__ROOT__`")
  ∧ oldId ≠ rootId
  ∧ (∀ v ∈ solution, v.1 = "__ROOT__" → v.2 = rootId)
  ∧ (∀ v ∈ solveFilterRoot solution rootId,
      v.1 ≠ "__ROOT__" ∧ v.2 ≠ rootId) := by
  have hroot : ∀ v ∈ solution, v.1 = "__ROOT__" → v.2 = rootId := by
    intro v hv hname
    have := hsol v hv
    rw [hname, lookup_insertReplace_self] at this
    injection this with h
    exact h.symm
  have holdne : oldId ≠ rootId := hfresh _ (lookup_mem hold)
  refine ⟨lookup_insertReplace_self cache _ rootId, ?_, holdne, hroot, ?_⟩
  · simp only [add_package, hold]
    rfl
  · intro v hv
    have hmem := List.mem_filter.mp hv
    have hne : v.2 ≠ rootId := by
      have := hmem.2
      simpa using this
    refine ⟨?_, hne⟩
    intro hname
    exact hne (hroot v hmem.1 hname)

/-- Witness for C10 at a concrete cache holding a pre-existing `__ROOT__`
universe (id 1) and a solution containing the synthetic root (id 5) and a
package `x`. -/
theorem c10_solve_root_replacement_witness :
    (insertReplace [("__ROOT__", 1), ("x", 2)] ("__ROOT__") 5).lookup ("__ROOT__")
      = some 5
  ∧ add_package [("__ROOT__", 1), ("x", 2)] ("__ROOT__") 5
      = .error ("duplicate package entry for `__ROOT__`")
  ∧ (∀ v ∈ solveFilterRoot [("x", 2), ("__ROOT__", 5)] 5,
      v.1 ≠ "__ROOT__" ∧ v.2 ≠ 5) :=
  have h := c10_solve_root_replacement [("__ROOT__", 1), ("x", 2)] 5 1
    [("x", 2), ("__ROOT__", 5)] (by decide) (by decide) (by decide)
  ⟨h.1, h.2.1, h.2.2.2.2⟩

end Rattler
